import Mathlib

/-!
Shallow embedding of the `turns` rotation scheduler (Rust) and verification of
its specification claims.

Modelling conventions:
* `chrono::NaiveDate` is modelled as `Nat` (days since an arbitrary epoch);
  `succ_opt().unwrap()` is `(· + 1)`, `checked_add_days(Days::new(k)).unwrap()`
  is `(· + k)`.  The `chrono` overflow bound (year ≈ 262143) is not modelled:
  dates are abstract ordered days.
* `chrono::TimeDelta` is modelled as `Int`, counted in seconds, which is the
  unit `TimeDelta` compares and accumulates in (`num_seconds`).  Subtracting
  two dates yields a whole-day delta, hence `86400 * (days)` seconds.
* `HashSet<NaiveDate>` / `HashMap<NaiveDate, PreferenceType>` /
  `HashMap<String, TimeDelta>` are modelled as association/"set" lists with
  exact-key lookup, which matches the maps' observable behaviour here (the one
  iteration over a `HashMap`, in round-robin seeding, is modelled in the list's
  order; no verified claim depends on that order).
* The Rust `while current_day < end` driver loops are modelled with an explicit
  fuel parameter (`none` = fuel exhausted); the termination claim shows that
  fuel `end - start` always suffices for valid parameters.
* `f64` load variance (balanced strategy) is modelled exactly over `ℚ`; every
  quantity involved is a small integer ratio.  No claim proved here depends on
  the outcome of a variance comparison.
-/

/-- `PreferenceType` from `src/input.rs`. -/
inductive PreferenceType where
  | Want : PreferenceType
  | NotWant : PreferenceType
deriving DecidableEq, Repr

/-- `Person` from `src/input.rs`.  `ooo` is the unavailable-date set,
`preferences` the per-date preference map (at most one entry per date). -/
structure Person where
  id : String
  name : String
  ooo : List Nat
  preferences : List (Nat × PreferenceType)
deriving DecidableEq, Repr

/-- `Assignment` from `src/output.rs`.  The Rust field `end` is a Lean keyword
and is rendered `stop`; `start` inclusive, `stop` exclusive. -/
structure Assignment where
  person : Nat
  start : Nat
  stop : Nat
deriving DecidableEq, Repr

/-- `Schedule` from `src/output.rs`. -/
structure Schedule where
  people : List Person
  turns : List Assignment
deriving DecidableEq, Repr

/-- `ScheduleError` from `src/output.rs`. -/
inductive ScheduleError where
  | NoOneAvailable : Nat → ScheduleError
deriving DecidableEq, Repr

/-- Positional list access (`Vec` indexing, always in bounds at call sites). -/
def nth {α : Type} : List α → Nat → Option α
  | [], _ => none
  | a :: _, 0 => some a
  | _ :: l, n + 1 => nth l n

/-- Positional list update (`load[assignee] += ...` target). -/
def setNth {α : Type} : List α → Nat → α → List α
  | [], _, _ => []
  | _ :: l, 0, b => b :: l
  | a :: l, n + 1, b => a :: setNth l n b

/-- The `TimeDelta` (in seconds) of the whole-day span from `b` to `a`;
`a - b` on two `NaiveDate`s.  Always used with `b ≤ a`. -/
def daysDelta (a b : Nat) : Int := ((a : Int) - (b : Int)) * 86400

/-- `load[i]` (in bounds at every call site; out of bounds yields 0). -/
def loadOf (load : List Int) (i : Nat) : Int := (nth load i).getD 0

/-- `load[i] += δ`. -/
def bumpLoad (load : List Int) (i : Nat) (δ : Int) : List Int :=
  setNth load i (loadOf load i + δ)

/-- The seeded load vector of `src/algo/{greedy,balanced}.rs`: per person,
`initial_load.get(&p.id).cloned().unwrap_or(TimeDelta::zero())`. -/
def initLoad (people : List Person) (il : Option (List (String × Int))) : List Int :=
  people.map (fun p =>
    match il with
    | some l => (l.lookup p.id).getD 0
    | none => 0)

/-! ## Round-robin strategy (`src/algo/roundrobin.rs`) -/

/-- `people[i].ooo.contains(&day)` (index always in bounds at call sites). -/
def personOoo (people : List Person) (i day : Nat) : Bool :=
  match nth people i with
  | some p => p.ooo.contains day
  | none => false

/-- The circular scan of `roundrobin.rs` lines 33–39: starting at `c`, advance
past people OOO on `day`; `none` models the `NoOneAvailable` return after the
scan wraps (the fuel is `people.length` at the top-level call, exactly the
number of probes the Rust loop makes before wrapping back to `assignee`). -/
def rrScan (people : List Person) (day : Nat) : Nat → Nat → Option Nat
  | _, 0 => none
  | c, f + 1 =>
    if personOoo people c day then rrScan people day ((c + 1) % people.length) f
    else some c

/-- The inner advance loop of `roundrobin.rs` lines 46–51:
`while current_day < last_day && current_day < end && !ooo.contains(current_day)`.
Fuel `lastDay - cur` suffices at the top-level call. -/
def rrAdvance (oooL : List Nat) (e lastDay : Nat) : Nat → Nat → Nat
  | 0, cur => cur
  | f + 1, cur =>
    if cur < lastDay ∧ cur < e ∧ ¬(oooL.contains cur = true) then
      rrAdvance oooL e lastDay f (cur + 1)
    else cur

/-- The OOO set of `people[i]`. -/
def oooOf (people : List Person) (i : Nat) : List Nat :=
  match nth people i with
  | some p => p.ooo
  | none => []

/-- One iteration of the `while current_day < end` loop of `roundrobin.rs`
(lines 32–58), given the current day and the cursor (`assignee` in the Rust):
returns `none` on `NoOneAvailable`, otherwise the pushed assignment, the new
current day and the new cursor. -/
def rrStep (people : List Person) (e turnLen cur cursor : Nat) :
    Option (Assignment × Nat × Nat) :=
  match rrScan people cur cursor people.length with
  | none => none
  | some cand =>
    let lastDay := cur + turnLen
    let cur2 := rrAdvance (oooOf people cand) e lastDay (lastDay - cur) cur
    some (⟨cand, cur, cur2⟩, cur2, (cand + 1) % people.length)

/-- The `while current_day < end` driver of `roundrobin.rs`, with fuel. -/
def rrAux (people : List Person) (e turnLen : Nat) :
    Nat → Nat → Nat → Option (Except ScheduleError (List Assignment))
  | fuel, cur, cursor =>
    if cur < e then
      match fuel with
      | 0 => none
      | fuel + 1 =>
        match rrStep people e turnLen cur cursor with
        | none => some (Except.error (ScheduleError.NoOneAvailable cur))
        | some (a, cur2, cursor2) =>
          match rrAux people e turnLen fuel cur2 cursor2 with
          | none => none
          | some (Except.error er) => some (Except.error er)
          | some (Except.ok rest) => some (Except.ok (a :: rest))
    else some (Except.ok [])

/-- Rust `Iterator::max_by_key` over an association list (`il.iter()`): returns
the key of the last entry attaining the maximal value.  (`HashMap` iteration
order is unspecified; the list's order stands in for it, and no verified claim
depends on which maximal entry is picked.) -/
def maxByValKey (l : List (String × Int)) : Option String :=
  (l.foldl
    (fun acc kv =>
      match acc with
      | none => some kv
      | some best => if best.2 ≤ kv.2 then some kv else acc)
    none).map (·.1)

/-- The initial-cursor computation of `roundrobin.rs` lines 17–30: start after
the person with the maximal seeded load, else at index 0. -/
def rrInitialCursor (people : List Person) (il : Option (List (String × Int))) : Nat :=
  match il with
  | none => 0
  | some l =>
    if l.isEmpty then 0
    else
      match maxByValKey l with
      | none => 0
      | some lastId =>
        match people.findIdx? (fun p => p.id = lastId) with
        | some pos => (pos + 1) % people.length
        | none => 0

/-- `roundrobin::schedule`.  `none` = fuel exhausted (the Rust loops forever or
panics only on invalid parameters; see the termination claim). -/
def rrSchedule (people : List Person) (s e turnLen : Nat)
    (il : Option (List (String × Int))) : Option (Except ScheduleError Schedule) :=
  (rrAux people e turnLen (e - s) s (rrInitialCursor people il)).map
    (fun r => r.map (fun ts => ⟨people, ts⟩))

/-! ## Greedy-load strategy (`src/algo/greedy.rs`) -/

/-- The `while current_date < end_date` scan of `is_ooo_for_turn`
(`greedy.rs` lines 9–19, identical in `balanced.rs` lines 7–17), with fuel. -/
def isOooGo (oooL : List Nat) (e : Nat) : Nat → Nat → Bool
  | 0, _ => false
  | f + 1, d => if d < e then (oooL.contains d || isOooGo oooL e f (d + 1)) else false

/-- `is_ooo_for_turn(person, start_date, end_date)`: is the person OOO on any
day of `[s, e)`? -/
def isOooForTurn (p : Person) (s e : Nat) : Bool := isOooGo p.ooo e (e - s) s

/-- The preference scan of `greedy.rs` lines 70–81 (identical in `balanced.rs`
lines 90–101): the pair `(has_want, has_not_want)` over the window `[d, e)`,
with fuel. -/
def prefGo (prefs : List (Nat × PreferenceType)) (e : Nat) : Nat → Nat → Bool × Bool
  | 0, _ => (false, false)
  | f + 1, d =>
    if d < e then
      let rest := prefGo prefs e f (d + 1)
      match prefs.lookup d with
      | some PreferenceType.Want => (true, rest.2)
      | some PreferenceType.NotWant => (rest.1, true)
      | none => rest
    else (false, false)

/-- `(has_want, has_not_want)` for person `p` over the window `[s, e)`. -/
def prefFlags (p : Person) (s e : Nat) : Bool × Bool :=
  prefGo p.preferences e (e - s) s

/-- The candidate-classification loop of `greedy.rs` lines 59–93, over a list
of roster indices: builds `(want_candidates, neutral_candidates,
not_want_candidates)`, skipping the last assignee and anyone OOO in the
window. -/
def classifyGo (people : List Person) (lastA : Option Nat) (cur tEnd : Nat) :
    List Nat → List Nat × List Nat × List Nat
  | [] => ([], [], [])
  | i :: rest =>
    let r := classifyGo people lastA cur tEnd rest
    match nth people i with
    | none => r
    | some p =>
      if some i = lastA then r
      else if isOooForTurn p cur tEnd then r
      else if (prefFlags p cur tEnd).1 then (i :: r.1, r.2.1, r.2.2)
      else if (prefFlags p cur tEnd).2 then (r.1, r.2.1, i :: r.2.2)
      else (r.1, i :: r.2.1, r.2.2)

/-- The three candidate buckets of one greedy step. -/
def classify (people : List Person) (lastA : Option Nat) (cur tEnd : Nat) :
    List Nat × List Nat × List Nat :=
  classifyGo people lastA cur tEnd (List.range people.length)

/-- Rust `Iterator::min_by_key(|&&p| load[p])`: the first index attaining the
minimal load (the running best is replaced only on a strictly smaller key). -/
def minByLoad (load : List Int) (cands : List Nat) : Option Nat :=
  cands.foldl
    (fun acc i =>
      match acc with
      | none => some i
      | some b => if loadOf load i < loadOf load b then some i else acc)
    none

/-- The candidate selection of `greedy.rs` lines 98–115: the best bucket in the
order Want > Neutral > NotWant, lowest load within it. -/
def greedyPick (people : List Person) (lastA : Option Nat) (cur tEnd : Nat)
    (load : List Int) : Option Nat :=
  let b := classify people lastA cur tEnd
  if ¬b.1.isEmpty then minByLoad load b.1
  else if ¬b.2.1.isEmpty then minByLoad load b.2.1
  else if ¬b.2.2.isEmpty then minByLoad load b.2.2
  else none

/-- One iteration of the `while current_day < end` loop of `greedy.rs`
(lines 46–138): `none` on `NoOneAvailable`, else the assignee and the turn end
`min(end, current_day + turn_length_days)`. -/
def greedyStep (people : List Person) (e turnLen cur : Nat) (lastA : Option Nat)
    (load : List Int) : Option (Nat × Nat) :=
  let tEnd := min e (cur + turnLen)
  (greedyPick people lastA cur tEnd load).map (fun a => (a, tEnd))

/-- The `while current_day < end` driver of `greedy.rs`, with fuel. -/
def greedyAux (people : List Person) (e turnLen : Nat) :
    Nat → Nat → Option Nat → List Int → Option (Except ScheduleError (List Assignment))
  | fuel, cur, lastA, load =>
    if cur < e then
      match fuel with
      | 0 => none
      | fuel + 1 =>
        match greedyStep people e turnLen cur lastA load with
        | none => some (Except.error (ScheduleError.NoOneAvailable cur))
        | some (a, tEnd) =>
          match greedyAux people e turnLen fuel tEnd (some a)
              (bumpLoad load a (daysDelta tEnd cur)) with
          | none => none
          | some (Except.error er) => some (Except.error er)
          | some (Except.ok rest) => some (Except.ok (⟨a, cur, tEnd⟩ :: rest))
    else some (Except.ok [])

/-- `greedy::schedule`.  The `_preference_weight` parameter is kept to model
the Rust signature (`greedy.rs` line 26); the body never reads it. -/
def greedySchedule (people : List Person) (s e turnLen : Nat)
    (_preference_weight : Option Nat) (il : Option (List (String × Int))) :
    Option (Except ScheduleError Schedule) :=
  (greedyAux people e turnLen (e - s) s none (initLoad people il)).map
    (fun r => r.map (fun ts => ⟨people, ts⟩))

/-! ## Balanced-variance strategy (`src/algo/balanced.rs`) -/

/-- `calculate_load_variance` (`balanced.rs` lines 19–35): population variance
of the load vector, in seconds.  The Rust computes over `f64`; here it is
computed exactly over `ℚ` (every input is an integer).  No claim proved below
depends on the outcome of a variance comparison. -/
def loadVariance (load : List Int) : ℚ :=
  let n : ℚ := load.length
  if n = 0 then 0
  else
    let mean : ℚ := (load.map (fun d => (d : ℚ))).sum / n
    (load.map (fun d => ((d : ℚ) - mean) * ((d : ℚ) - mean))).sum / n

/-- The Rust range `min_turn_days..=max_turn_days` as a list. -/
def lenRange (minT maxT : Nat) : List Nat := List.range' minT (maxT + 1 - minT)

/-- The candidate pairs scanned by `balanced.rs` lines 66–139: person indices
outer, turn lengths inner. -/
def balancedPairs (people : List Person) (minT maxT : Nat) : List (Nat × Nat) :=
  (List.range people.length).flatMap (fun i => (lenRange minT maxT).map (fun len => (i, len)))

/-- The body of the double loop of `balanced.rs` lines 66–139 for one
`(person, turn_len)` pair: possibly replace the running `best_choice`
`(assignee, turn_end, preference_group, variance)`.  The last-assignee check
sits at the person level in the Rust; applying it per pair is equivalent. -/
def balancedConsider (people : List Person) (e cur : Nat) (lastA : Option Nat)
    (load : List Int) (best : Option (Nat × Nat × Nat × ℚ)) (pair : Nat × Nat) :
    Option (Nat × Nat × Nat × ℚ) :=
  let (i, len) := pair
  if some i = lastA then best
  else
    match nth people i with
    | none => best
    | some p =>
      let tEnd := min e (cur + len)
      if isOooForTurn p cur tEnd then best
      else
        let f := prefFlags p cur tEnd
        let group : Nat := if f.1 then 0 else if f.2 then 2 else 1
        let nextLoad := bumpLoad load i (daysDelta tEnd cur)
        let v := loadVariance nextLoad
        match best with
        | none => some (i, tEnd, group, v)
        | some (bi, bt, bg, bv) =>
          if group < bg then some (i, tEnd, group, v)
          else if group = bg ∧ v < bv then some (i, tEnd, group, v)
          else some (bi, bt, bg, bv)

/-- The full `best_choice` computation of one balanced step. -/
def balancedBest (people : List Person) (e cur minT maxT : Nat) (lastA : Option Nat)
    (load : List Int) : Option (Nat × Nat × Nat × ℚ) :=
  (balancedPairs people minT maxT).foldl (balancedConsider people e cur lastA load) none

/-- The `while current_day < end` driver of `balanced.rs` (lines 62–159), with
fuel. -/
def balancedAux (people : List Person) (e minT maxT : Nat) :
    Nat → Nat → Option Nat → List Int → Option (Except ScheduleError (List Assignment))
  | fuel, cur, lastA, load =>
    if cur < e then
      match fuel with
      | 0 => none
      | fuel + 1 =>
        match balancedBest people e cur minT maxT lastA load with
        | none => some (Except.error (ScheduleError.NoOneAvailable cur))
        | some (a, tEnd, _, _) =>
          match balancedAux people e minT maxT fuel tEnd (some a)
              (bumpLoad load a (daysDelta tEnd cur)) with
          | none => none
          | some (Except.error er) => some (Except.error er)
          | some (Except.ok rest) => some (Except.ok (⟨a, cur, tEnd⟩ :: rest))
    else some (Except.ok [])

/-- `balanced::schedule`. -/
def balancedSchedule (people : List Person) (s e minT maxT : Nat)
    (il : Option (List (String × Int))) : Option (Except ScheduleError Schedule) :=
  (balancedAux people e minT maxT (e - s) s none (initLoad people il)).map
    (fun r => r.map (fun ts => ⟨people, ts⟩))

/-! ## Shared specification predicates -/

/-- The assignments `ts` tile `[c, e)` exactly, left to right, each with a
non-empty window. -/
def chainFrom (e : Nat) : Nat → List Assignment → Prop
  | c, [] => c = e
  | c, a :: rest => a.start = c ∧ c < a.stop ∧ chainFrom e a.stop rest

/-- The contiguity/gaplessness contract over `[s, e)`: non-empty, first start
`s`, each end equal to the next start, last end `e`, every window non-empty. -/
def Gapless (s e : Nat) (ts : List Assignment) : Prop :=
  ts ≠ [] ∧
  (∀ a, nth ts 0 = some a → a.start = s) ∧
  (∀ i a b, nth ts i = some a → nth ts (i + 1) = some b → a.stop = b.start) ∧
  (∀ a, ts.getLast? = some a → a.stop = e) ∧
  (∀ a ∈ ts, a.start < a.stop)

/-- No two consecutive assignments go to the same person. -/
def NoImmediateRepeat (ts : List Assignment) : Prop :=
  ∀ i a b, nth ts i = some a → nth ts (i + 1) = some b → a.person ≠ b.person

/-- The assignment's window contains no OOO date of its person. -/
def turnOooFree (people : List Person) (a : Assignment) : Prop :=
  ∀ p, nth people a.person = some p →
    ∀ d, a.start ≤ d → d < a.stop → p.ooo.contains d = false

/-- Some window day carries a `Want` preference. -/
def hasWantDay (p : Person) (s e : Nat) : Prop :=
  ∃ d, s ≤ d ∧ d < e ∧ p.preferences.lookup d = some PreferenceType.Want

/-- Some window day carries a `NotWant` preference. -/
def hasNotWantDay (p : Person) (s e : Nat) : Prop :=
  ∃ d, s ≤ d ∧ d < e ∧ p.preferences.lookup d = some PreferenceType.NotWant

/-! ## Basic lemmas -/

theorem nth_cons_succ {α : Type} (a : α) (l : List α) (n : Nat) :
    nth (a :: l) (n + 1) = nth l n := rfl

theorem chainFrom_lt {e : Nat} :
    ∀ {c : Nat} {x : Assignment} {l : List Assignment},
      chainFrom e c (x :: l) → c < e := by
  intro c x l h
  induction l generalizing c x with
  | nil => obtain ⟨_, h2, h3⟩ := h; simp only [chainFrom] at h3; omega
  | cons y ys ih =>
    obtain ⟨_, h2, h3⟩ := h
    exact lt_trans h2 (ih h3)

theorem getLast?_cons_cons (a b : Assignment) (l : List Assignment) :
    (a :: b :: l).getLast? = (b :: l).getLast? := by
  simp [List.getLast?]

theorem chainFrom_gapless {e : Nat} :
    ∀ {s : Nat} {ts : List Assignment}, s < e → chainFrom e s ts → Gapless s e ts := by
  intro s ts
  induction ts generalizing s with
  | nil => intro hse h; simp only [chainFrom] at h; omega
  | cons a rest ih =>
    intro hse h
    obtain ⟨hstart, hpos, hrest⟩ := h
    cases rest with
    | nil =>
      simp only [chainFrom] at hrest
      refine ⟨by simp, ?_, ?_, ?_, ?_⟩
      · intro x hx; simp only [nth] at hx; cases hx; exact hstart
      · intro i x y hx hy
        rw [show i + 1 = i + 1 from rfl, nth_cons_succ] at hy
        simp only [nth] at hy
        exact Option.noConfusion hy
      · intro x hx; simp only [List.getLast?] at hx; cases hx; exact hrest
      · intro x hx; simp only [List.mem_singleton] at hx; subst hx; omega
    | cons b rest' =>
      have hlt : a.stop < e := chainFrom_lt hrest
      obtain ⟨_, hhead, hadj, hlast, hpos'⟩ := ih hlt hrest
      refine ⟨by simp, ?_, ?_, ?_, ?_⟩
      · intro x hx; simp only [nth] at hx; cases hx; exact hstart
      · intro i x y hx hy
        cases i with
        | zero =>
          simp only [nth] at hx hy
          cases hx
          have := hhead y hy
          omega
        | succ j =>
          rw [nth_cons_succ] at hx hy
          exact hadj j x y hx hy
      · intro x hx
        rw [getLast?_cons_cons] at hx
        exact hlast x hx
      · intro x hx
        rcases List.mem_cons.mp hx with rfl | hx'
        · omega
        · exact hpos' x hx'

theorem chainFrom_ne_nil {s e : Nat} {ts : List Assignment} (hse : s < e)
    (h : chainFrom e s ts) : ts ≠ [] := by
  cases ts with
  | nil => simp only [chainFrom] at h; omega
  | cons a l => simp

theorem noImmediateRepeat_cons {x : Assignment} {ts : List Assignment}
    (hhead : ∀ b, nth ts 0 = some b → x.person ≠ b.person)
    (hrest : NoImmediateRepeat ts) : NoImmediateRepeat (x :: ts) := by
  intro i a b ha hb
  cases i with
  | zero =>
    simp only [nth] at ha
    cases ha
    rw [nth_cons_succ] at hb
    exact hhead b hb
  | succ j =>
    rw [nth_cons_succ] at ha hb
    exact hrest j a b ha hb

/-! ## Round-robin lemmas -/

theorem rrAdvance_ge (oooL : List Nat) (e lastDay : Nat) :
    ∀ f cur, cur ≤ rrAdvance oooL e lastDay f cur := by
  intro f
  induction f with
  | zero => intro cur; simp [rrAdvance]
  | succ g ih =>
    intro cur
    simp only [rrAdvance]
    split
    · exact le_trans (Nat.le_succ cur) (ih (cur + 1))
    · exact le_refl cur

theorem rrAdvance_le_e (oooL : List Nat) (e lastDay : Nat) :
    ∀ f cur, cur ≤ e → rrAdvance oooL e lastDay f cur ≤ e := by
  intro f
  induction f with
  | zero => intro cur h; simpa [rrAdvance] using h
  | succ g ih =>
    intro cur h
    simp only [rrAdvance]
    split
    · next hc => exact ih (cur + 1) (by omega)
    · exact h

theorem rrAdvance_le_last (oooL : List Nat) (e lastDay : Nat) :
    ∀ f cur, cur ≤ lastDay → rrAdvance oooL e lastDay f cur ≤ lastDay := by
  intro f
  induction f with
  | zero => intro cur h; simpa [rrAdvance] using h
  | succ g ih =>
    intro cur h
    simp only [rrAdvance]
    split
    · next hc => exact ih (cur + 1) (by omega)
    · exact h

theorem rrAdvance_gt (oooL : List Nat) (e lastDay : Nat) (f cur : Nat)
    (h1 : cur < lastDay) (h2 : cur < e) (h3 : ¬(oooL.contains cur = true)) :
    cur < rrAdvance oooL e lastDay (f + 1) cur := by
  simp only [rrAdvance]
  rw [if_pos ⟨h1, h2, h3⟩]
  exact lt_of_lt_of_le (Nat.lt_succ_self cur) (rrAdvance_ge oooL e lastDay f (cur + 1))

theorem rrAdvance_no_ooo (oooL : List Nat) (e lastDay : Nat) :
    ∀ f cur d, cur ≤ d → d < rrAdvance oooL e lastDay f cur →
      oooL.contains d = false := by
  intro f
  induction f with
  | zero => intro cur d h1 h2; simp only [rrAdvance] at h2; omega
  | succ g ih =>
    intro cur d h1 h2
    simp only [rrAdvance] at h2
    by_cases hc : cur < lastDay ∧ cur < e ∧ ¬(oooL.contains cur = true)
    · rw [if_pos hc] at h2
      rcases Nat.eq_or_lt_of_le h1 with rfl | hlt
      · simpa using hc.2.2
      · exact ih (cur + 1) d hlt h2
    · rw [if_neg hc] at h2; omega

/-- The loop's exit condition holds at the returned day (given enough fuel). -/
theorem rrAdvance_stop (oooL : List Nat) (e lastDay : Nat) :
    ∀ f cur, lastDay ≤ cur + f →
      ¬(rrAdvance oooL e lastDay f cur < lastDay ∧
        rrAdvance oooL e lastDay f cur < e ∧
        ¬(oooL.contains (rrAdvance oooL e lastDay f cur) = true)) := by
  intro f
  induction f with
  | zero => intro cur h; simp only [rrAdvance]; omega
  | succ g ih =>
    intro cur h
    simp only [rrAdvance]
    by_cases hc : cur < lastDay ∧ cur < e ∧ ¬(oooL.contains cur = true)
    · rw [if_pos hc]; exact ih (cur + 1) (by omega)
    · rw [if_neg hc]; exact hc

theorem rrScan_some (people : List Person) (day : Nat) :
    ∀ f c r, c < people.length → rrScan people day c f = some r →
      r < people.length ∧ personOoo people r day = false := by
  intro f
  induction f with
  | zero => intro c r _ h; simp [rrScan] at h
  | succ g ih =>
    intro c r hc h
    simp only [rrScan] at h
    by_cases ho : personOoo people c day
    · rw [if_pos ho] at h
      have hn : 0 < people.length := by omega
      exact ih ((c + 1) % people.length) r (Nat.mod_lt _ hn) h
    · rw [if_neg ho] at h
      cases h
      exact ⟨hc, by simpa using ho⟩

theorem rrScan_none_of_all (people : List Person) (day : Nat)
    (hall : ∀ i, i < people.length → personOoo people i day = true) :
    ∀ f c, c < people.length → rrScan people day c f = none := by
  intro f
  induction f with
  | zero => intro c _; rfl
  | succ g ih =>
    intro c hc
    simp only [rrScan]
    rw [if_pos (hall c hc)]
    exact ih _ (Nat.mod_lt _ (by omega))

theorem nth_of_lt {α : Type} : ∀ (l : List α) (i : Nat), i < l.length → ∃ x, nth l i = some x := by
  intro l
  induction l with
  | nil => intro i h; simp at h
  | cons a l ih =>
    intro i h
    cases i with
    | zero => exact ⟨a, rfl⟩
    | succ j => exact ih j (by simpa using h)

theorem oooOf_eq {people : List Person} {i : Nat} {p : Person}
    (h : nth people i = some p) : oooOf people i = p.ooo := by
  simp [oooOf, h]

theorem personOoo_eq {people : List Person} {i : Nat} {p : Person}
    (h : nth people i = some p) (d : Nat) :
    personOoo people i d = p.ooo.contains d := by
  simp [personOoo, h]

/-- Per-turn facts of a round-robin assignment: non-empty window of at most
`turnLen` days, no OOO day inside it, and the turn ends at the full length, at
the schedule end, or on the first day the person is OOO. -/
def rrTurnOk (people : List Person) (e turnLen : Nat) (a : Assignment) : Prop :=
  1 ≤ a.stop - a.start ∧ a.stop - a.start ≤ turnLen ∧
  turnOooFree people a ∧
  (∀ p, nth people a.person = some p →
    a.stop = a.start + turnLen ∨ a.stop = e ∨ p.ooo.contains a.stop = true)

theorem rrStep_spec (people : List Person) (e turnLen cur cursor : Nat)
    (hlen : 1 ≤ turnLen) (hcur : cur < e) (hcs : cursor < people.length)
    {a : Assignment} {cur2 cursor2 : Nat}
    (h : rrStep people e turnLen cur cursor = some (a, cur2, cursor2)) :
    a.start = cur ∧ a.stop = cur2 ∧ cur < cur2 ∧ cur2 ≤ e ∧
    cur2 ≤ cur + turnLen ∧ cursor2 < people.length ∧
    rrTurnOk people e turnLen a := by
  obtain ⟨g, hg⟩ : ∃ g, turnLen = g + 1 := ⟨turnLen - 1, by omega⟩
  subst hg
  simp only [rrStep] at h
  cases hscan : rrScan people cur cursor people.length with
  | none => rw [hscan] at h; simp at h
  | some cand =>
    rw [hscan] at h
    simp only [Option.some.injEq, Prod.mk.injEq] at h
    obtain ⟨ha, hc2, hcs2⟩ := h
    obtain ⟨hcandlt, hcandooo⟩ := rrScan_some people cur _ cursor cand hcs hscan
    obtain ⟨p, hp⟩ := nth_of_lt people cand hcandlt
    have hlenpos : 0 < people.length := by omega
    rw [show cur + (g + 1) - cur = g + 1 from by omega] at ha hc2
    have hcontains : p.ooo.contains cur = false := by rwa [personOoo_eq hp] at hcandooo
    have hooofalse : ¬((oooOf people cand).contains cur = true) := by
      rw [oooOf_eq hp, hcontains]; simp
    have hstart : a.start = cur := by rw [← ha]
    have hperson : a.person = cand := by rw [← ha]
    have hstop : a.stop = cur2 := by rw [← ha]; exact hc2
    have hgt : cur < cur2 := by
      rw [← hc2]
      exact rrAdvance_gt (oooOf people cand) e (cur + (g + 1)) g cur (by omega) hcur hooofalse
    have hle : cur2 ≤ e := by
      rw [← hc2]; exact rrAdvance_le_e _ e _ (g + 1) cur (by omega)
    have hlast : cur2 ≤ cur + (g + 1) := by
      rw [← hc2]; exact rrAdvance_le_last _ e _ (g + 1) cur (by omega)
    refine ⟨hstart, hstop, hgt, hle, hlast, ?_, ?_, ?_, ?_, ?_⟩
    · rw [← hcs2]; exact Nat.mod_lt _ hlenpos
    · rw [hstart, hstop]; omega
    · rw [hstart, hstop]; omega
    · intro q hq d hd1 hd2
      rw [hperson, hp] at hq
      cases hq
      rw [hstart] at hd1
      rw [hstop] at hd2
      have := rrAdvance_no_ooo (oooOf people cand) e (cur + (g + 1)) (g + 1) cur d hd1
        (by rw [hc2]; exact hd2)
      rwa [oooOf_eq hp] at this
    · intro q hq
      rw [hperson, hp] at hq
      cases hq
      rw [hstart, hstop]
      have hstopcond := rrAdvance_stop (oooOf people cand) e (cur + (g + 1)) (g + 1) cur (by omega)
      rw [hc2] at hstopcond
      rw [oooOf_eq hp] at hstopcond
      simp only [not_and, not_not] at hstopcond
      by_cases h1 : cur2 < cur + (g + 1)
      · by_cases h2 : cur2 < e
        · right; right; exact hstopcond h1 h2
        · right; left; omega
      · left; omega

theorem rrAux_spec (people : List Person) (e turnLen : Nat) (hlen : 1 ≤ turnLen) :
    ∀ fuel cur cursor ts, cur ≤ e → cursor < people.length →
      rrAux people e turnLen fuel cur cursor = some (Except.ok ts) →
      chainFrom e cur ts ∧ ∀ a ∈ ts, rrTurnOk people e turnLen a := by
  intro fuel
  induction fuel with
  | zero =>
    intro cur cursor ts hce hcs h
    simp only [rrAux] at h
    by_cases hc : cur < e
    · rw [if_pos hc] at h; simp at h
    · rw [if_neg hc] at h
      simp only [Option.some.injEq, Except.ok.injEq] at h
      subst h
      exact ⟨by simp only [chainFrom]; omega, by simp⟩
  | succ g ih =>
    intro cur cursor ts hce hcs h
    simp only [rrAux] at h
    by_cases hc : cur < e
    · rw [if_pos hc] at h
      split at h
      · simp at h
      · next a cur2 cursor2 hstep =>
        obtain ⟨hstart, hstop, hgt, hle, hlast, hcs2, hok⟩ :=
          rrStep_spec people e turnLen cur cursor hlen hc hcs hstep
        split at h
        · simp at h
        · simp at h
        · next rest hrec =>
          simp only [Option.some.injEq, Except.ok.injEq] at h
          subst h
          obtain ⟨hchain, hall⟩ := ih cur2 cursor2 rest hle hcs2 hrec
          refine ⟨⟨hstart, by omega, by rw [hstop]; exact hchain⟩, ?_⟩
          intro x hx
          rcases List.mem_cons.mp hx with rfl | hx'
          · exact hok
          · exact hall x hx'
    · rw [if_neg hc] at h
      simp only [Option.some.injEq, Except.ok.injEq] at h
      subst h
      exact ⟨by simp only [chainFrom]; omega, by simp⟩

/-! ## Greedy lemmas -/

theorem isOooGo_false_iff (oooL : List Nat) (e : Nat) :
    ∀ f d, e ≤ d + f →
      (isOooGo oooL e f d = false ↔ ∀ x, d ≤ x → x < e → oooL.contains x = false) := by
  intro f
  induction f with
  | zero =>
    intro d hf
    simp only [isOooGo]
    constructor
    · intro _ x hx1 hx2; omega
    · intro _; trivial
  | succ g ih =>
    intro d hf
    simp only [isOooGo]
    by_cases hd : d < e
    · rw [if_pos hd]
      simp only [Bool.or_eq_false_iff]
      constructor
      · intro ⟨h1, h2⟩ x hx1 hx2
        rcases Nat.eq_or_lt_of_le hx1 with rfl | hlt
        · exact h1
        · exact ((ih (d + 1) (by omega)).mp h2) x hlt hx2
      · intro hall
        refine ⟨hall d (le_refl d) hd, ?_⟩
        exact (ih (d + 1) (by omega)).mpr (fun x hx1 hx2 => hall x (by omega) hx2)
    · rw [if_neg hd]
      constructor
      · intro _ x hx1 hx2; omega
      · intro _; trivial

theorem isOooForTurn_false_iff (p : Person) (s e : Nat) :
    isOooForTurn p s e = false ↔ ∀ x, s ≤ x → x < e → p.ooo.contains x = false := by
  exact isOooGo_false_iff p.ooo e (e - s) s (by omega)

/-- If the person is OOO on the window's first day, the window scan reports
OOO. -/
theorem isOooForTurn_true_first (p : Person) (s e : Nat) (hse : s < e)
    (h : p.ooo.contains s = true) : isOooForTurn p s e = true := by
  have hf : ∃ g, e - s = g + 1 := ⟨e - s - 1, by omega⟩
  obtain ⟨g, hg⟩ := hf
  simp only [isOooForTurn, hg, isOooGo]
  rw [if_pos hse, h]
  rfl

theorem prefGo_fst_iff (prefs : List (Nat × PreferenceType)) (e : Nat) :
    ∀ f d, e ≤ d + f →
      ((prefGo prefs e f d).1 = true ↔
        ∃ x, d ≤ x ∧ x < e ∧ prefs.lookup x = some PreferenceType.Want) := by
  intro f
  induction f with
  | zero =>
    intro d hf
    simp only [prefGo]
    constructor
    · intro h; simp at h
    · intro ⟨x, hx1, hx2, _⟩; omega
  | succ g ih =>
    intro d hf
    simp only [prefGo]
    by_cases hd : d < e
    · rw [if_pos hd]
      cases hl : prefs.lookup d with
      | none =>
        simp only []
        rw [ih (d + 1) (by omega)]
        constructor
        · intro ⟨x, hx1, hx2, hx3⟩; exact ⟨x, by omega, hx2, hx3⟩
        · intro ⟨x, hx1, hx2, hx3⟩
          rcases Nat.eq_or_lt_of_le hx1 with rfl | hlt
          · rw [hl] at hx3; simp at hx3
          · exact ⟨x, hlt, hx2, hx3⟩
      | some pt =>
        cases pt with
        | Want =>
          simp only []
          constructor
          · intro _; exact ⟨d, le_refl d, hd, hl⟩
          · intro _; trivial
        | NotWant =>
          simp only []
          rw [ih (d + 1) (by omega)]
          constructor
          · intro ⟨x, hx1, hx2, hx3⟩; exact ⟨x, by omega, hx2, hx3⟩
          · intro ⟨x, hx1, hx2, hx3⟩
            rcases Nat.eq_or_lt_of_le hx1 with rfl | hlt
            · rw [hl] at hx3; simp at hx3
            · exact ⟨x, hlt, hx2, hx3⟩
    · rw [if_neg hd]
      constructor
      · intro h; simp at h
      · intro ⟨x, hx1, hx2, _⟩; omega

theorem prefGo_snd_iff (prefs : List (Nat × PreferenceType)) (e : Nat) :
    ∀ f d, e ≤ d + f →
      ((prefGo prefs e f d).2 = true ↔
        ∃ x, d ≤ x ∧ x < e ∧ prefs.lookup x = some PreferenceType.NotWant) := by
  intro f
  induction f with
  | zero =>
    intro d hf
    simp only [prefGo]
    constructor
    · intro h; simp at h
    · intro ⟨x, hx1, hx2, _⟩; omega
  | succ g ih =>
    intro d hf
    simp only [prefGo]
    by_cases hd : d < e
    · rw [if_pos hd]
      cases hl : prefs.lookup d with
      | none =>
        simp only []
        rw [ih (d + 1) (by omega)]
        constructor
        · intro ⟨x, hx1, hx2, hx3⟩; exact ⟨x, by omega, hx2, hx3⟩
        · intro ⟨x, hx1, hx2, hx3⟩
          rcases Nat.eq_or_lt_of_le hx1 with rfl | hlt
          · rw [hl] at hx3; simp at hx3
          · exact ⟨x, hlt, hx2, hx3⟩
      | some pt =>
        cases pt with
        | NotWant =>
          simp only []
          constructor
          · intro _; exact ⟨d, le_refl d, hd, hl⟩
          · intro _; trivial
        | Want =>
          simp only []
          rw [ih (d + 1) (by omega)]
          constructor
          · intro ⟨x, hx1, hx2, hx3⟩; exact ⟨x, by omega, hx2, hx3⟩
          · intro ⟨x, hx1, hx2, hx3⟩
            rcases Nat.eq_or_lt_of_le hx1 with rfl | hlt
            · rw [hl] at hx3; simp at hx3
            · exact ⟨x, hlt, hx2, hx3⟩
    · rw [if_neg hd]
      constructor
      · intro h; simp at h
      · intro ⟨x, hx1, hx2, _⟩; omega

theorem prefFlags_fst_iff (p : Person) (s e : Nat) :
    (prefFlags p s e).1 = true ↔ hasWantDay p s e := by
  exact prefGo_fst_iff p.preferences e (e - s) s (by omega)

theorem prefFlags_snd_iff (p : Person) (s e : Nat) :
    (prefFlags p s e).2 = true ↔ hasNotWantDay p s e := by
  exact prefGo_snd_iff p.preferences e (e - s) s (by omega)

/-- Boolean test: `i` is an eligible candidate whose window holds a Want day
(greedy bucket 1). -/
def wantB (people : List Person) (lastA : Option Nat) (cur tEnd i : Nat) : Bool :=
  match nth people i with
  | none => false
  | some p =>
    !(decide (some i = lastA)) && !(isOooForTurn p cur tEnd) && (prefFlags p cur tEnd).1

/-- Boolean test: eligible candidate with neither Want nor NotWant days
(greedy bucket 2). -/
def neutralB (people : List Person) (lastA : Option Nat) (cur tEnd i : Nat) : Bool :=
  match nth people i with
  | none => false
  | some p =>
    !(decide (some i = lastA)) && !(isOooForTurn p cur tEnd) &&
      !(prefFlags p cur tEnd).1 && !(prefFlags p cur tEnd).2

/-- Boolean test: eligible candidate with a NotWant day and no Want day
(greedy bucket 3). -/
def notWantB (people : List Person) (lastA : Option Nat) (cur tEnd i : Nat) : Bool :=
  match nth people i with
  | none => false
  | some p =>
    !(decide (some i = lastA)) && !(isOooForTurn p cur tEnd) &&
      !(prefFlags p cur tEnd).1 && (prefFlags p cur tEnd).2

theorem classifyGo_eq_filter (people : List Person) (lastA : Option Nat) (cur tEnd : Nat) :
    ∀ L, classifyGo people lastA cur tEnd L =
      (L.filter (wantB people lastA cur tEnd),
       L.filter (neutralB people lastA cur tEnd),
       L.filter (notWantB people lastA cur tEnd)) := by
  intro L
  induction L with
  | nil => rfl
  | cons j L ih =>
    simp only [classifyGo, ih, List.filter_cons]
    cases hnth : nth people j with
    | none =>
      simp [wantB, neutralB, notWantB, hnth]
    | some p =>
      by_cases hla : some j = lastA
      · simp [wantB, neutralB, notWantB, hnth, hla]
      · by_cases hooo : isOooForTurn p cur tEnd
        · simp [wantB, neutralB, notWantB, hnth, hla, hooo]
        · by_cases hw : (prefFlags p cur tEnd).1
          · simp [wantB, neutralB, notWantB, hnth, hla, hooo, hw]
          · by_cases hnw : (prefFlags p cur tEnd).2
            · simp [wantB, neutralB, notWantB, hnth, hla, hooo, hw, hnw]
            · simp [wantB, neutralB, notWantB, hnth, hla, hooo, hw, hnw]

theorem minFold_spec (load : List Int) :
    ∀ (rest : List Nat) (b a : Nat),
      rest.foldl
        (fun acc i =>
          match acc with
          | none => some i
          | some c => if loadOf load i < loadOf load c then some i else acc)
        (some b) = some a →
      (a = b ∧ ∀ x ∈ rest, loadOf load b ≤ loadOf load x) ∨
      (loadOf load a < loadOf load b ∧ ∃ l₁ l₂, rest = l₁ ++ a :: l₂ ∧
        (∀ x ∈ l₁, loadOf load a < loadOf load x) ∧
        (∀ x ∈ l₂, loadOf load a ≤ loadOf load x)) := by
  intro rest
  induction rest with
  | nil =>
    intro b a h
    simp only [List.foldl_nil, Option.some.injEq] at h
    left
    exact ⟨h.symm, by simp⟩
  | cons x rest ih =>
    intro b a h
    simp only [List.foldl_cons] at h
    by_cases hx : loadOf load x < loadOf load b
    · rw [if_pos hx] at h
      rcases ih x a h with ⟨rfl, hall⟩ | ⟨hlt, l₁, l₂, hsplit, h₁, h₂⟩
      · right
        refine ⟨hx, [], rest, by simp, by simp, hall⟩
      · right
        refine ⟨lt_trans hlt hx, x :: l₁, l₂, by rw [hsplit]; rfl, ?_, h₂⟩
        intro y hy
        rcases List.mem_cons.mp hy with rfl | hy'
        · exact hlt
        · exact h₁ y hy'
    · rw [if_neg hx] at h
      rcases ih b a h with ⟨rfl, hall⟩ | ⟨hlt, l₁, l₂, hsplit, h₁, h₂⟩
      · left
        refine ⟨rfl, ?_⟩
        intro y hy
        rcases List.mem_cons.mp hy with rfl | hy'
        · omega
        · exact hall y hy'
      · right
        refine ⟨hlt, x :: l₁, l₂, by rw [hsplit]; rfl, ?_, h₂⟩
        intro y hy
        rcases List.mem_cons.mp hy with rfl | hy'
        · omega
        · exact h₁ y hy'

theorem minByLoad_spec (load : List Int) (cands : List Nat) (a : Nat)
    (hs : cands.Pairwise (· < ·)) (h : minByLoad load cands = some a) :
    a ∈ cands ∧ ∀ b ∈ cands, loadOf load a ≤ loadOf load b ∧
      (loadOf load b = loadOf load a → a ≤ b) := by
  cases cands with
  | nil => simp [minByLoad] at h
  | cons c rest =>
    simp only [minByLoad, List.foldl_cons] at h
    rcases minFold_spec load rest c a h with ⟨rfl, hall⟩ | ⟨hlt, l₁, l₂, hsplit, h₁, h₂⟩
    · constructor
      · exact List.mem_cons_self _ _
      · intro b hb
        rcases List.mem_cons.mp hb with rfl | hb'
        · exact ⟨le_refl _, fun _ => le_refl _⟩
        · refine ⟨hall b hb', fun _ => ?_⟩
          have := (List.pairwise_cons.mp hs).1 b hb'
          omega
    · subst hsplit
      have hmem : a ∈ c :: (l₁ ++ a :: l₂) := by simp
      refine ⟨hmem, ?_⟩
      have hpw := hs
      rw [List.pairwise_cons] at hpw
      obtain ⟨hc, htail⟩ := hpw
      rw [List.pairwise_append] at htail
      obtain ⟨hl₁, hal₂, hcross⟩ := htail
      rw [List.pairwise_cons] at hal₂
      obtain ⟨haltl₂, _⟩ := hal₂
      intro b hb
      rcases List.mem_cons.mp hb with rfl | hb'
      · exact ⟨le_of_lt hlt, fun hh => by omega⟩
      · rcases List.mem_append.mp hb' with hbl₁ | hbr
        · exact ⟨le_of_lt (h₁ b hbl₁), fun hh => by have := h₁ b hbl₁; omega⟩
        · rcases List.mem_cons.mp hbr with rfl | hbl₂
          · exact ⟨le_refl _, fun _ => le_refl _⟩
          · exact ⟨h₂ b hbl₂, fun _ => le_of_lt (haltl₂ b hbl₂)⟩

theorem candOf_bucketB {people : List Person} {lastA : Option Nat} {cur tEnd i : Nat}
    (h : wantB people lastA cur tEnd i = true ∨ neutralB people lastA cur tEnd i = true ∨
      notWantB people lastA cur tEnd i = true) :
    ∃ p, nth people i = some p ∧ some i ≠ lastA ∧ isOooForTurn p cur tEnd = false := by
  cases hnth : nth people i with
  | none => rcases h with h | h | h <;> simp [wantB, neutralB, notWantB, hnth] at h
  | some p =>
    rcases h with h | h | h <;> simp only [wantB, neutralB, notWantB, hnth,
      Bool.and_eq_true, Bool.not_eq_true', decide_eq_false_iff_not] at h
    · exact ⟨p, rfl, h.1.1, by simp [h.1.2]⟩
    · exact ⟨p, rfl, h.1.1.1, by simp [h.1.1.2]⟩
    · exact ⟨p, rfl, h.1.1.1, by simp [h.1.1.2]⟩

theorem bucket_sorted (n : Nat) (pred : Nat → Bool) :
    ((List.range n).filter pred).Pairwise (· < ·) :=
  List.Pairwise.sublist (List.filter_sublist _) (List.pairwise_lt_range _)

theorem greedyPick_mem (people : List Person) (lastA : Option Nat) (cur tEnd : Nat)
    (load : List Int) {a : Nat}
    (h : greedyPick people lastA cur tEnd load = some a) :
    wantB people lastA cur tEnd a = true ∨ neutralB people lastA cur tEnd a = true ∨
      notWantB people lastA cur tEnd a = true := by
  simp only [greedyPick, classify, classifyGo_eq_filter] at h
  split at h
  · have := (minByLoad_spec _ _ _ (bucket_sorted people.length _) h).1
    exact Or.inl (List.mem_filter.mp this).2
  · split at h
    · have := (minByLoad_spec _ _ _ (bucket_sorted people.length _) h).1
      exact Or.inr (Or.inl (List.mem_filter.mp this).2)
    · split at h
      · have := (minByLoad_spec _ _ _ (bucket_sorted people.length _) h).1
        exact Or.inr (Or.inr (List.mem_filter.mp this).2)
      · simp at h

theorem greedyStep_spec (people : List Person) (e turnLen cur : Nat)
    (lastA : Option Nat) (load : List Int) {a tEnd : Nat}
    (h : greedyStep people e turnLen cur lastA load = some (a, tEnd)) :
    tEnd = min e (cur + turnLen) ∧ some a ≠ lastA ∧
    ∃ p, nth people a = some p ∧ isOooForTurn p cur tEnd = false := by
  simp only [greedyStep] at h
  rw [Option.map_eq_some'] at h
  obtain ⟨a', hpick, heq⟩ := h
  simp only [Prod.mk.injEq] at heq
  obtain ⟨rfl, htEnd⟩ := heq
  obtain ⟨p, hp, hla, hooo⟩ := candOf_bucketB (greedyPick_mem people lastA cur _ load hpick)
  exact ⟨htEnd.symm, hla, p, hp, by rw [← htEnd]; exact hooo⟩

theorem greedyAux_spec (people : List Person) (e turnLen : Nat) (hlen : 1 ≤ turnLen) :
    ∀ fuel cur lastA load ts, cur ≤ e →
      greedyAux people e turnLen fuel cur lastA load = some (Except.ok ts) →
      chainFrom e cur ts ∧
      (∀ x, nth ts 0 = some x → some x.person ≠ lastA) ∧
      NoImmediateRepeat ts ∧
      (∀ a ∈ ts, turnOooFree people a) := by
  intro fuel
  induction fuel with
  | zero =>
    intro cur lastA load ts hce h
    simp only [greedyAux] at h
    by_cases hc : cur < e
    · rw [if_pos hc] at h; simp at h
    · rw [if_neg hc] at h
      simp only [Option.some.injEq, Except.ok.injEq] at h
      subst h
      refine ⟨by simp only [chainFrom]; omega, ?_, ?_, by simp⟩
      · intro x hx; simp [nth] at hx
      · intro i x y hx hy; simp [nth] at hx
  | succ g ih =>
    intro cur lastA load ts hce h
    simp only [greedyAux] at h
    by_cases hc : cur < e
    · rw [if_pos hc] at h
      split at h
      · simp at h
      · next a tEnd hstep =>
        obtain ⟨htEnd, hla, p, hp, hooo⟩ :=
          greedyStep_spec people e turnLen cur lastA load hstep
        have htlt : cur < tEnd := by rw [htEnd]; omega
        have htle : tEnd ≤ e := by rw [htEnd]; omega
        split at h
        · simp at h
        · simp at h
        · next rest hrec =>
          simp only [Option.some.injEq, Except.ok.injEq] at h
          subst h
          obtain ⟨hchain, hhead, hnorep, hfree⟩ := ih tEnd (some a) _ rest htle hrec
          refine ⟨⟨rfl, htlt, hchain⟩, ?_, ?_, ?_⟩
          · intro x hx
            simp only [nth] at hx
            cases hx
            exact hla
          · refine noImmediateRepeat_cons ?_ hnorep
            intro b hb
            have := hhead b hb
            intro hpe
            apply this
            rw [← hpe]
          · intro x hx
            rcases List.mem_cons.mp hx with rfl | hx'
            · intro q hq d hd1 hd2
              simp only [] at hq hd1 hd2
              rw [hp] at hq
              cases hq
              exact (isOooForTurn_false_iff p cur tEnd).mp hooo d hd1 hd2
            · exact hfree x hx'
    · rw [if_neg hc] at h
      simp only [Option.some.injEq, Except.ok.injEq] at h
      subst h
      refine ⟨by simp only [chainFrom]; omega, ?_, ?_, by simp⟩
      · intro x hx; simp [nth] at hx
      · intro i x y hx hy; simp [nth] at hx

/-! ## Balanced lemmas -/

theorem lenRange_mem {minT maxT len : Nat} (h : len ∈ lenRange minT maxT) :
    minT ≤ len ∧ len ≤ maxT := by
  simp only [lenRange, List.mem_range'_1] at h
  omega

theorem balancedPairs_mem {people : List Person} {minT maxT : Nat} {pr : Nat × Nat}
    (h : pr ∈ balancedPairs people minT maxT) :
    pr.1 < people.length ∧ minT ≤ pr.2 ∧ pr.2 ≤ maxT := by
  simp only [balancedPairs, List.mem_flatMap, List.mem_map, List.mem_range] at h
  obtain ⟨i, hi, len, hlen, rfl⟩ := h
  exact ⟨hi, (lenRange_mem hlen).1, (lenRange_mem hlen).2⟩

/-- The invariant carried by the `best_choice` fold: the tracked candidate is
not the last assignee, its window is non-empty, ends by `e` and by
`cur + maxT`, and the candidate is not OOO inside it. -/
def bestInv (people : List Person) (e cur maxT : Nat) (lastA : Option Nat)
    (c : Nat × Nat × Nat × ℚ) : Prop :=
  some c.1 ≠ lastA ∧ cur < c.2.1 ∧ c.2.1 ≤ e ∧ c.2.1 ≤ cur + maxT ∧
  ∃ p, nth people c.1 = some p ∧ isOooForTurn p cur c.2.1 = false

theorem balancedConsider_inv (people : List Person) (e cur maxT : Nat)
    (lastA : Option Nat) (load : List Int) (minT : Nat) (hmin : 1 ≤ minT)
    (hce : cur < e) (pr : Nat × Nat) (hpr : minT ≤ pr.2 ∧ pr.2 ≤ maxT)
    (best : Option (Nat × Nat × Nat × ℚ))
    (hbest : ∀ c, best = some c → bestInv people e cur maxT lastA c) :
    ∀ c, balancedConsider people e cur lastA load best pr = some c →
      bestInv people e cur maxT lastA c := by
  intro c hc
  obtain ⟨i, len⟩ := pr
  simp only at hpr
  simp only [balancedConsider] at hc
  split at hc
  · exact hbest c hc
  · next hla =>
    split at hc
    · exact hbest c hc
    · next p hnth =>
      split at hc
      · exact hbest c hc
      · next hooo =>
        have h1 : cur < min e (cur + len) := by omega
        have h2 : min e (cur + len) ≤ e := by omega
        have h3 : min e (cur + len) ≤ cur + maxT := by omega
        have hnew : ∀ g v, bestInv people e cur maxT lastA (i, min e (cur + len), g, v) :=
          fun g v => ⟨hla, h1, h2, h3, p, hnth, Bool.eq_false_iff.mpr hooo⟩
        split at hc
        · injection hc with hc; subst hc; exact hnew _ _
        · next bi bt bg bv =>
          split at hc
          all_goals try split at hc
          all_goals try split at hc
          all_goals try split at hc
          all_goals injection hc with hceq
          all_goals subst hceq
          all_goals first | exact hnew _ _ | exact hbest _ rfl

theorem foldConsider_inv (people : List Person) (e cur maxT : Nat)
    (lastA : Option Nat) (load : List Int) (minT : Nat) (hmin : 1 ≤ minT)
    (hce : cur < e) :
    ∀ L : List (Nat × Nat), (∀ pr ∈ L, minT ≤ pr.2 ∧ pr.2 ≤ maxT) →
      ∀ acc, (∀ c, acc = some c → bestInv people e cur maxT lastA c) →
        ∀ c, L.foldl (balancedConsider people e cur lastA load) acc = some c →
          bestInv people e cur maxT lastA c := by
  intro L
  induction L with
  | nil => intro _ acc hacc c h; simp only [List.foldl_nil] at h; exact hacc c h
  | cons pr L ih =>
    intro hL acc hacc c h
    simp only [List.foldl_cons] at h
    refine ih (fun q hq => hL q (List.mem_cons_of_mem _ hq)) _ ?_ c h
    exact balancedConsider_inv people e cur maxT lastA load minT hmin hce pr
      (hL pr (List.mem_cons_self _ _)) acc hacc

theorem balancedBest_spec (people : List Person) (e cur minT maxT : Nat)
    (lastA : Option Nat) (load : List Int) (hmin : 1 ≤ minT) (hce : cur < e)
    {c : Nat × Nat × Nat × ℚ}
    (h : balancedBest people e cur minT maxT lastA load = some c) :
    bestInv people e cur maxT lastA c := by
  refine foldConsider_inv people e cur maxT lastA load minT hmin hce
    (balancedPairs people minT maxT) ?_ none (by intro c hc; cases hc) c h
  intro pr hpr
  exact (balancedPairs_mem hpr).2

theorem foldConsider_id (people : List Person) (e cur : Nat) (lastA : Option Nat)
    (load : List Int) :
    ∀ L : List (Nat × Nat),
      (∀ pr ∈ L, ∀ a, balancedConsider people e cur lastA load a pr = a) →
      ∀ acc, L.foldl (balancedConsider people e cur lastA load) acc = acc := by
  intro L
  induction L with
  | nil => intro _ acc; rfl
  | cons pr L ih =>
    intro hL acc
    simp only [List.foldl_cons]
    rw [hL pr (List.mem_cons_self _ _) acc]
    exact ih (fun q hq => hL q (List.mem_cons_of_mem _ hq)) acc

theorem nth_mem {α : Type} : ∀ (l : List α) (i : Nat) (x : α), nth l i = some x → x ∈ l := by
  intro l
  induction l with
  | nil => intro i x h; simp [nth] at h
  | cons a l ih =>
    intro i x h
    cases i with
    | zero => simp only [nth, Option.some.injEq] at h; subst h; exact List.mem_cons_self _ _
    | succ j => exact List.mem_cons_of_mem _ (ih j x h)

/-- If every roster member is OOO on `cur`, no `(person, length)` pair is
valid, so the balanced step finds no `best_choice`. -/
theorem balancedBest_none_of_allOoo (people : List Person) (e cur minT maxT : Nat)
    (lastA : Option Nat) (load : List Int) (hmin : 1 ≤ minT) (hce : cur < e)
    (hall : ∀ p ∈ people, p.ooo.contains cur = true) :
    balancedBest people e cur minT maxT lastA load = none := by
  refine foldConsider_id people e cur lastA load (balancedPairs people minT maxT) ?_ none
  intro pr hpr a
  obtain ⟨i, len⟩ := pr
  have hlen : 1 ≤ len := le_trans hmin (balancedPairs_mem hpr).2.1
  simp only [balancedConsider]
  split
  · rfl
  · cases hnth : nth people i with
    | none => rfl
    | some p =>
      have hoootrue : isOooForTurn p cur (min e (cur + len)) = true :=
        isOooForTurn_true_first p cur (min e (cur + len)) (by omega)
          (hall p (nth_mem people i p hnth))
      simp [hoootrue]

/-- With the lone roster member as last assignee, every pair is skipped. -/
theorem balancedBest_single_last (p : Person) (e cur minT maxT : Nat)
    (load : List Int) :
    balancedBest [p] e cur minT maxT (some 0) load = none := by
  refine foldConsider_id [p] e cur (some 0) load (balancedPairs [p] minT maxT) ?_ none
  intro pr hpr a
  obtain ⟨i, len⟩ := pr
  have hi : i < 1 := by simpa using (balancedPairs_mem hpr).1
  have : i = 0 := by omega
  subst this
  simp [balancedConsider]

theorem balancedAux_spec (people : List Person) (e minT maxT : Nat) (hmin : 1 ≤ minT) :
    ∀ fuel cur lastA load ts, cur ≤ e →
      balancedAux people e minT maxT fuel cur lastA load = some (Except.ok ts) →
      chainFrom e cur ts ∧
      (∀ x, nth ts 0 = some x → some x.person ≠ lastA) ∧
      NoImmediateRepeat ts ∧
      (∀ a ∈ ts, turnOooFree people a) := by
  intro fuel
  induction fuel with
  | zero =>
    intro cur lastA load ts hce h
    simp only [balancedAux] at h
    by_cases hc : cur < e
    · rw [if_pos hc] at h; simp at h
    · rw [if_neg hc] at h
      simp only [Option.some.injEq, Except.ok.injEq] at h
      subst h
      refine ⟨by simp only [chainFrom]; omega, ?_, ?_, by simp⟩
      · intro x hx; simp [nth] at hx
      · intro i x y hx hy; simp [nth] at hx
  | succ g ih =>
    intro cur lastA load ts hce h
    simp only [balancedAux] at h
    by_cases hc : cur < e
    · rw [if_pos hc] at h
      split at h
      · simp at h
      · next a tEnd pg pv hbest =>
        obtain ⟨hla, htlt, htle, _, p, hp, hooo⟩ :=
          balancedBest_spec people e cur minT maxT lastA load hmin hc hbest
        split at h
        · simp at h
        · simp at h
        · next rest hrec =>
          simp only [Option.some.injEq, Except.ok.injEq] at h
          subst h
          obtain ⟨hchain, hhead, hnorep, hfree⟩ := ih tEnd (some a) _ rest htle hrec
          refine ⟨⟨rfl, htlt, hchain⟩, ?_, ?_, ?_⟩
          · intro x hx
            simp only [nth] at hx
            cases hx
            exact hla
          · refine noImmediateRepeat_cons ?_ hnorep
            intro b hb
            have := hhead b hb
            intro hpe
            apply this
            rw [← hpe]
          · intro x hx
            rcases List.mem_cons.mp hx with rfl | hx'
            · intro q hq d hd1 hd2
              simp only [] at hq hd1 hd2
              rw [hp] at hq
              cases hq
              exact (isOooForTurn_false_iff p cur tEnd).mp hooo d hd1 hd2
            · exact hfree x hx'
    · rw [if_neg hc] at h
      simp only [Option.some.injEq, Except.ok.injEq] at h
      subst h
      refine ⟨by simp only [chainFrom]; omega, ?_, ?_, by simp⟩
      · intro x hx; simp [nth] at hx
      · intro i x y hx hy; simp [nth] at hx

/-! ## Termination (fuel-sufficiency) lemmas -/

theorem rrAux_total (people : List Person) (e turnLen : Nat) (hlen : 1 ≤ turnLen) :
    ∀ fuel cur cursor, cursor < people.length → e ≤ cur + fuel →
      (rrAux people e turnLen fuel cur cursor).isSome := by
  intro fuel
  induction fuel with
  | zero =>
    intro cur cursor _ hf
    simp only [rrAux]
    rw [if_neg (by omega)]
    rfl
  | succ g ih =>
    intro cur cursor hcs hf
    simp only [rrAux]
    by_cases hc : cur < e
    · rw [if_pos hc]
      cases hstep : rrStep people e turnLen cur cursor with
      | none => rfl
      | some t =>
        obtain ⟨a, cur2, cursor2⟩ := t
        obtain ⟨_, _, hgt, _, _, hcs2, _⟩ :=
          rrStep_spec people e turnLen cur cursor hlen hc hcs hstep
        have := ih cur2 cursor2 hcs2 (by omega)
        cases hrec : rrAux people e turnLen g cur2 cursor2 with
        | none => rw [hrec] at this; simp at this
        | some r => cases r <;> simp [hrec]
    · rw [if_neg hc]; rfl

theorem greedyAux_total (people : List Person) (e turnLen : Nat) (hlen : 1 ≤ turnLen) :
    ∀ fuel cur lastA load, e ≤ cur + fuel →
      (greedyAux people e turnLen fuel cur lastA load).isSome := by
  intro fuel
  induction fuel with
  | zero =>
    intro cur lastA load hf
    simp only [greedyAux]
    rw [if_neg (by omega)]
    rfl
  | succ g ih =>
    intro cur lastA load hf
    simp only [greedyAux]
    by_cases hc : cur < e
    · rw [if_pos hc]
      cases hstep : greedyStep people e turnLen cur lastA load with
      | none => rfl
      | some t =>
        obtain ⟨a, tEnd⟩ := t
        obtain ⟨htEnd, _, _⟩ := greedyStep_spec people e turnLen cur lastA load hstep
        have hgt : cur < tEnd := by rw [htEnd]; omega
        have := ih tEnd (some a) (bumpLoad load a (daysDelta tEnd cur)) (by omega)
        cases hrec : greedyAux people e turnLen g tEnd (some a)
            (bumpLoad load a (daysDelta tEnd cur)) with
        | none => rw [hrec] at this; simp at this
        | some r => cases r <;> simp [hrec]
    · rw [if_neg hc]; rfl

theorem balancedAux_total (people : List Person) (e minT maxT : Nat) (hmin : 1 ≤ minT) :
    ∀ fuel cur lastA load, e ≤ cur + fuel →
      (balancedAux people e minT maxT fuel cur lastA load).isSome := by
  intro fuel
  induction fuel with
  | zero =>
    intro cur lastA load hf
    simp only [balancedAux]
    rw [if_neg (by omega)]
    rfl
  | succ g ih =>
    intro cur lastA load hf
    simp only [balancedAux]
    by_cases hc : cur < e
    · rw [if_pos hc]
      cases hbest : balancedBest people e cur minT maxT lastA load with
      | none => rfl
      | some c =>
        obtain ⟨a, tEnd, pg, pv⟩ := c
        obtain ⟨_, hgt, _, _, _⟩ :=
          balancedBest_spec people e cur minT maxT lastA load hmin hc hbest
        have hgt2 : cur < tEnd := hgt
        have := ih tEnd (some a) (bumpLoad load a (daysDelta tEnd cur)) (by omega)
        cases hrec : balancedAux people e minT maxT g tEnd (some a)
            (bumpLoad load a (daysDelta tEnd cur)) with
        | none => rw [hrec] at this; simp at this
        | some r => cases r <;> simp [hrec]
    · rw [if_neg hc]; rfl

theorem rrInitialCursor_lt (people : List Person) (il : Option (List (String × Int)))
    (hne : 0 < people.length) : rrInitialCursor people il < people.length := by
  simp only [rrInitialCursor]
  split
  · exact hne
  · split
    · exact hne
    · split
      · exact hne
      · split
        · exact Nat.mod_lt _ hne
        · exact hne

/-! ## Helpers for the claim theorems -/

theorem schedule_ok_elim {people : List Person}
    {o : Option (Except ScheduleError (List Assignment))} {sched : Schedule}
    (h : o.map (fun r => r.map (fun ts => (⟨people, ts⟩ : Schedule))) =
      some (Except.ok sched)) :
    ∃ ts, o = some (Except.ok ts) ∧ sched = ⟨people, ts⟩ := by
  cases o with
  | none => simp at h
  | some r =>
    cases r with
    | error er => simp [Except.map] at h
    | ok ts =>
      simp only [Option.map_some', Except.map, Option.some.injEq, Except.ok.injEq] at h
      exact ⟨ts, rfl, h.symm⟩

theorem wantB_false_of_allOoo {people : List Person} {lastA : Option Nat}
    {cur tEnd : Nat} (i : Nat) (hct : cur < tEnd)
    (hall : ∀ p ∈ people, p.ooo.contains cur = true) :
    wantB people lastA cur tEnd i = false := by
  cases hnth : nth people i with
  | none => simp [wantB, hnth]
  | some p =>
    have hooo : isOooForTurn p cur tEnd = true :=
      isOooForTurn_true_first p cur tEnd hct (hall p (nth_mem people i p hnth))
    simp [wantB, hnth, hooo]

theorem neutralB_false_of_allOoo {people : List Person} {lastA : Option Nat}
    {cur tEnd : Nat} (i : Nat) (hct : cur < tEnd)
    (hall : ∀ p ∈ people, p.ooo.contains cur = true) :
    neutralB people lastA cur tEnd i = false := by
  cases hnth : nth people i with
  | none => simp [neutralB, hnth]
  | some p =>
    have hooo : isOooForTurn p cur tEnd = true :=
      isOooForTurn_true_first p cur tEnd hct (hall p (nth_mem people i p hnth))
    simp [neutralB, hnth, hooo]

theorem notWantB_false_of_allOoo {people : List Person} {lastA : Option Nat}
    {cur tEnd : Nat} (i : Nat) (hct : cur < tEnd)
    (hall : ∀ p ∈ people, p.ooo.contains cur = true) :
    notWantB people lastA cur tEnd i = false := by
  cases hnth : nth people i with
  | none => simp [notWantB, hnth]
  | some p =>
    have hooo : isOooForTurn p cur tEnd = true :=
      isOooForTurn_true_first p cur tEnd hct (hall p (nth_mem people i p hnth))
    simp [notWantB, hnth, hooo]

theorem greedyPick_none_of_allOoo (people : List Person) (lastA : Option Nat)
    (cur tEnd : Nat) (load : List Int) (hct : cur < tEnd)
    (hall : ∀ p ∈ people, p.ooo.contains cur = true) :
    greedyPick people lastA cur tEnd load = none := by
  have hw : List.filter (wantB people lastA cur tEnd) (List.range people.length) = [] :=
    List.filter_eq_nil_iff.mpr (fun i _ => by rw [wantB_false_of_allOoo i hct hall]; simp)
  have hn : List.filter (neutralB people lastA cur tEnd) (List.range people.length) = [] :=
    List.filter_eq_nil_iff.mpr (fun i _ => by rw [neutralB_false_of_allOoo i hct hall]; simp)
  have hnw : List.filter (notWantB people lastA cur tEnd) (List.range people.length) = [] :=
    List.filter_eq_nil_iff.mpr (fun i _ => by rw [notWantB_false_of_allOoo i hct hall]; simp)
  simp [greedyPick, classify, classifyGo_eq_filter, hw, hn, hnw]

/-! ## Claim theorems -/

/-- C10: The greedy-load strategy ignores its `preference_weight` parameter:
two runs differing only in that argument return identical results. -/
theorem greedy_preference_weight_independent
    (people : List Person) (s e turnLen : Nat) (w1 w2 : Option Nat)
    (il : Option (List (String × Int))) :
    greedySchedule people s e turnLen w1 il = greedySchedule people s e turnLen w2 il := rfl

/-- Concrete three-person roster for the round-robin cursor counterexample:
person 0 is OOO on day 0. -/
def cexPeople : List Person :=
  [⟨"alice", "Alice", [0], []⟩, ⟨"bob", "Bob", [], []⟩, ⟨"charlie", "Charlie", [], []⟩]

/-- C2 counterexample: with the cursor at 0 and person 0 OOO on day 0, the
round-robin step assigns person 1 and leaves the cursor at 2, not at
`(0 + 1) % 3 = 1` as the claim states. -/
theorem rr_cursor_claim_counterexample :
    rrStep cexPeople 1 1 0 0 = some (⟨1, 0, 1⟩, 1, 2) ∧
    (0 + 1) % cexPeople.length = 1 ∧ (2 : Nat) ≠ 1 := by
  refine ⟨rfl, rfl, by decide⟩

/-- C2 (amended): after every completed round-robin turn the cursor equals
`(assignedPersonIndex + 1) % rosterSize`; this coincides with
`(cursorBefore + 1) % rosterSize` only when the scan assigned the person the
cursor pointed at. -/
theorem rr_cursor_advances_from_assignee
    (people : List Person) (e turnLen cur cursor : Nat)
    (a : Assignment) (cur2 cursor2 : Nat)
    (h : rrStep people e turnLen cur cursor = some (a, cur2, cursor2)) :
    cursor2 = (a.person + 1) % people.length := by
  simp only [rrStep] at h
  cases hscan : rrScan people cur cursor people.length with
  | none => rw [hscan] at h; simp at h
  | some cand =>
    rw [hscan] at h
    simp only [Option.some.injEq, Prod.mk.injEq] at h
    obtain ⟨ha, _, hcs2⟩ := h
    rw [← hcs2, ← ha]

/-- Witness for the amended C2 theorem at a concrete input. -/
theorem rr_cursor_advances_from_assignee_witness :
    rrStep cexPeople 1 1 0 0 = some (⟨1, 0, 1⟩, 1, 2) ∧
    (2 : Nat) = ((1 : Nat) + 1) % cexPeople.length :=
  ⟨rfl, rr_cursor_advances_from_assignee cexPeople 1 1 0 0 ⟨1, 0, 1⟩ 1 2 rfl⟩

/-- C1: for a non-empty roster, `start < end` and valid parameters, any
`Schedule` returned by any of the three strategies has a non-empty assignment
list that tiles `[scheduleStart, scheduleEnd)` exactly: first start is
`scheduleStart`, each end equals the next start, last end is `scheduleEnd`,
and every assignment has `start < end`. -/
theorem strategies_contiguous_gapless
    (people : List Person) (s e turnLen minT maxT : Nat) (pw : Option Nat)
    (il : Option (List (String × Int)))
    (hne : people ≠ []) (hse : s < e) (hlen : 1 ≤ turnLen)
    (hmin : 1 ≤ minT) (hminmax : minT ≤ maxT) :
    (∀ sched, rrSchedule people s e turnLen il = some (Except.ok sched) →
      Gapless s e sched.turns) ∧
    (∀ sched, greedySchedule people s e turnLen pw il = some (Except.ok sched) →
      Gapless s e sched.turns) ∧
    (∀ sched, balancedSchedule people s e minT maxT il = some (Except.ok sched) →
      Gapless s e sched.turns) := by
  have hpos : 0 < people.length := List.length_pos.mpr hne
  refine ⟨?_, ?_, ?_⟩
  · intro sched h
    rw [rrSchedule] at h
    obtain ⟨ts, ho, rfl⟩ := schedule_ok_elim h
    have hchain := (rrAux_spec people e turnLen hlen (e - s) s
      (rrInitialCursor people il) ts (le_of_lt hse)
      (rrInitialCursor_lt people il hpos) ho).1
    exact chainFrom_gapless hse hchain
  · intro sched h
    rw [greedySchedule] at h
    obtain ⟨ts, ho, rfl⟩ := schedule_ok_elim h
    have hchain := (greedyAux_spec people e turnLen hlen (e - s) s
      none (initLoad people il) ts (le_of_lt hse) ho).1
    exact chainFrom_gapless hse hchain
  · intro sched h
    rw [balancedSchedule] at h
    obtain ⟨ts, ho, rfl⟩ := schedule_ok_elim h
    have hchain := (balancedAux_spec people e minT maxT hmin (e - s) s
      none (initLoad people il) ts (le_of_lt hse) ho).1
    exact chainFrom_gapless hse hchain

/-- C5: with a non-empty roster, `start < end` and valid parameters, each
strategy terminates: within `end - start` loop iterations it returns either a
`Schedule` or a `NoOneAvailable` failure (the fuelled driver never runs out,
because every successful step strictly advances the current day). -/
theorem strategies_terminate
    (people : List Person) (s e turnLen minT maxT : Nat) (pw : Option Nat)
    (il : Option (List (String × Int)))
    (hne : people ≠ []) (hse : s < e) (hlen : 1 ≤ turnLen)
    (hmin : 1 ≤ minT) (hminmax : minT ≤ maxT) :
    (∃ r, rrSchedule people s e turnLen il = some r) ∧
    (∃ r, greedySchedule people s e turnLen pw il = some r) ∧
    (∃ r, balancedSchedule people s e minT maxT il = some r) := by
  have hpos : 0 < people.length := List.length_pos.mpr hne
  refine ⟨?_, ?_, ?_⟩
  · have h := rrAux_total people e turnLen hlen (e - s) s
      (rrInitialCursor people il) (rrInitialCursor_lt people il hpos) (by omega)
    obtain ⟨r, hr⟩ := Option.isSome_iff_exists.mp h
    exact ⟨r.map (fun ts => ⟨people, ts⟩), by rw [rrSchedule, hr]; rfl⟩
  · have h := greedyAux_total people e turnLen hlen (e - s) s
      none (initLoad people il) (by omega)
    obtain ⟨r, hr⟩ := Option.isSome_iff_exists.mp h
    exact ⟨r.map (fun ts => ⟨people, ts⟩), by rw [greedySchedule, hr]; rfl⟩
  · have h := balancedAux_total people e minT maxT hmin (e - s) s
      none (initLoad people il) (by omega)
    obtain ⟨r, hr⟩ := Option.isSome_iff_exists.mp h
    exact ⟨r.map (fun ts => ⟨people, ts⟩), by rw [balancedSchedule, hr]; rfl⟩

/-- C6: in any schedule produced by the greedy-load or balanced-variance
strategy, no two consecutive assignments go to the same person. -/
theorem greedy_balanced_no_immediate_repeat
    (people : List Person) (s e turnLen minT maxT : Nat) (pw : Option Nat)
    (il : Option (List (String × Int)))
    (hse : s < e) (hlen : 1 ≤ turnLen) (hmin : 1 ≤ minT) :
    (∀ sched, greedySchedule people s e turnLen pw il = some (Except.ok sched) →
      NoImmediateRepeat sched.turns) ∧
    (∀ sched, balancedSchedule people s e minT maxT il = some (Except.ok sched) →
      NoImmediateRepeat sched.turns) := by
  refine ⟨?_, ?_⟩
  · intro sched h
    rw [greedySchedule] at h
    obtain ⟨ts, ho, rfl⟩ := schedule_ok_elim h
    exact (greedyAux_spec people e turnLen hlen (e - s) s
      none (initLoad people il) ts (le_of_lt hse) ho).2.2.1
  · intro sched h
    rw [balancedSchedule] at h
    obtain ⟨ts, ho, rfl⟩ := schedule_ok_elim h
    exact (balancedAux_spec people e minT maxT hmin (e - s) s
      none (initLoad people il) ts (le_of_lt hse) ho).2.2.1

/-- C7: in any schedule produced by the greedy-load or balanced-variance
strategy, no assignment's window `[start, end)` contains a date in the
assigned person's unavailable set. -/
theorem greedy_balanced_ooo_exclusion
    (people : List Person) (s e turnLen minT maxT : Nat) (pw : Option Nat)
    (il : Option (List (String × Int)))
    (hse : s < e) (hlen : 1 ≤ turnLen) (hmin : 1 ≤ minT) :
    (∀ sched, greedySchedule people s e turnLen pw il = some (Except.ok sched) →
      ∀ a ∈ sched.turns, turnOooFree people a) ∧
    (∀ sched, balancedSchedule people s e minT maxT il = some (Except.ok sched) →
      ∀ a ∈ sched.turns, turnOooFree people a) := by
  refine ⟨?_, ?_⟩
  · intro sched h
    rw [greedySchedule] at h
    obtain ⟨ts, ho, rfl⟩ := schedule_ok_elim h
    exact (greedyAux_spec people e turnLen hlen (e - s) s
      none (initLoad people il) ts (le_of_lt hse) ho).2.2.2
  · intro sched h
    rw [balancedSchedule] at h
    obtain ⟨ts, ho, rfl⟩ := schedule_ok_elim h
    exact (balancedAux_spec people e minT maxT hmin (e - s) s
      none (initLoad people il) ts (le_of_lt hse) ho).2.2.2

/-- C8: every assignment of a round-robin schedule with `turnLengthDays ≥ 1`
has a window free of its person's OOO dates, a length between 1 and
`turnLengthDays`, and ends at the full turn length, at the schedule end, or on
the first day the person becomes OOO. -/
theorem rr_ooo_truncation
    (people : List Person) (s e turnLen : Nat) (il : Option (List (String × Int)))
    (hne : people ≠ []) (hse : s < e) (hlen : 1 ≤ turnLen) :
    ∀ sched, rrSchedule people s e turnLen il = some (Except.ok sched) →
      ∀ a ∈ sched.turns, rrTurnOk people e turnLen a := by
  have hpos : 0 < people.length := List.length_pos.mpr hne
  intro sched h
  rw [rrSchedule] at h
  obtain ⟨ts, ho, rfl⟩ := schedule_ok_elim h
  exact (rrAux_spec people e turnLen hlen (e - s) s (rrInitialCursor people il) ts
    (le_of_lt hse) (rrInitialCursor_lt people il hpos) ho).2

/-- C4: if every roster member is OOO on the first day of the window, each of
the three strategies fails with `NoOneAvailable(firstDay)`. -/
theorem all_ooo_first_day_fails
    (people : List Person) (s e turnLen minT maxT : Nat) (pw : Option Nat)
    (il : Option (List (String × Int)))
    (hne : people ≠ []) (hse : s < e) (hlen : 1 ≤ turnLen) (hmin : 1 ≤ minT)
    (hall : ∀ p ∈ people, p.ooo.contains s = true) :
    rrSchedule people s e turnLen il =
      some (Except.error (ScheduleError.NoOneAvailable s)) ∧
    greedySchedule people s e turnLen pw il =
      some (Except.error (ScheduleError.NoOneAvailable s)) ∧
    balancedSchedule people s e minT maxT il =
      some (Except.error (ScheduleError.NoOneAvailable s)) := by
  have hpos : 0 < people.length := List.length_pos.mpr hne
  obtain ⟨f, hf⟩ : ∃ f, e - s = f + 1 := ⟨e - s - 1, by omega⟩
  have hallOoo : ∀ i, i < people.length → personOoo people i s = true := by
    intro i hi
    obtain ⟨p, hp⟩ := nth_of_lt people i hi
    rw [personOoo_eq hp]
    exact hall p (nth_mem people i p hp)
  refine ⟨?_, ?_, ?_⟩
  · have hscan : rrScan people s (rrInitialCursor people il) people.length = none :=
      rrScan_none_of_all people s hallOoo people.length _ (rrInitialCursor_lt people il hpos)
    have hstep : rrStep people e turnLen s (rrInitialCursor people il) = none := by
      simp only [rrStep, hscan]
    rw [rrSchedule, hf]
    simp only [rrAux, if_pos hse, hstep]
    rfl
  · have hstep : greedyStep people e turnLen s none (initLoad people il) = none := by
      simp only [greedyStep]
      rw [greedyPick_none_of_allOoo people none s (min e (s + turnLen))
        (initLoad people il) (by omega) hall]
      rfl
    rw [greedySchedule, hf]
    simp only [greedyAux, if_pos hse, hstep]
    rfl
  · have hbest : balancedBest people e s minT maxT none (initLoad people il) = none :=
      balancedBest_none_of_allOoo people e s minT maxT none (initLoad people il)
        hmin hse hall
    rw [balancedSchedule, hf]
    simp only [balancedAux, if_pos hse, hbest]
    rfl

/-- The highest-priority non-empty bucket, in the order
Want > Neutral > NotWant (empty only if all three buckets are empty). -/
def bestBucket (people : List Person) (lastA : Option Nat) (cur tEnd : Nat) : List Nat :=
  let b := classify people lastA cur tEnd
  if ¬b.1.isEmpty then b.1
  else if ¬b.2.1.isEmpty then b.2.1
  else b.2.2

theorem greedyPick_eq (people : List Person) (lastA : Option Nat) (cur tEnd : Nat)
    (load : List Int) :
    greedyPick people lastA cur tEnd load =
      minByLoad load (bestBucket people lastA cur tEnd) := by
  simp only [greedyPick, bestBucket]
  split
  · rfl
  · split
    · rfl
    · split
      · rfl
      · next h =>
        have hnil : (classify people lastA cur tEnd).2.2 = [] :=
          List.isEmpty_iff.mp (not_not.mp h)
        rw [hnil]
        rfl

theorem bestBucket_sorted (people : List Person) (lastA : Option Nat) (cur tEnd : Nat) :
    (bestBucket people lastA cur tEnd).Pairwise (· < ·) := by
  simp only [bestBucket, classify, classifyGo_eq_filter]
  split
  · exact bucket_sorted people.length _
  · split
    · exact bucket_sorted people.length _
    · exact bucket_sorted people.length _

theorem classify_mem_iff (people : List Person) (lastA : Option Nat) (cur tEnd : Nat)
    (i : Nat) (p : Person) (hp : nth people i = some p) (hi : i < people.length)
    (hla : some i ≠ lastA) (hooo : isOooForTurn p cur tEnd = false) :
    (i ∈ (classify people lastA cur tEnd).1 ↔ hasWantDay p cur tEnd) ∧
    (i ∈ (classify people lastA cur tEnd).2.2 ↔
      hasNotWantDay p cur tEnd ∧ ¬hasWantDay p cur tEnd) ∧
    (i ∈ (classify people lastA cur tEnd).2.1 ↔
      ¬hasWantDay p cur tEnd ∧ ¬hasNotWantDay p cur tEnd) := by
  have hw := prefFlags_fst_iff p cur tEnd
  have hnw := prefFlags_snd_iff p cur tEnd
  rw [← hw, ← hnw]
  simp only [classify, classifyGo_eq_filter, List.mem_filter, List.mem_range,
    wantB, neutralB, notWantB, hp, hla, hooo, hi, true_and, Bool.and_eq_true,
    Bool.not_eq_true', decide_eq_false_iff_not, ne_eq, not_false_iff]
  rcases Bool.eq_false_or_eq_true ((prefFlags p cur tEnd).1) with h1 | h1 <;>
    rcases Bool.eq_false_or_eq_true ((prefFlags p cur tEnd).2) with h2 | h2 <;>
      simp [h1, h2]

/-- What C3 asserts of one greedy step that picked `(a, tEnd)`: the window is
`[cur, min(e, cur+turnLen))`; every eligible candidate (not last assignee, not
OOO in the window) is in the Want bucket iff some window day carries Want, in
the NotWant bucket iff some day carries NotWant and none Want, and in the
Neutral bucket otherwise (hence in exactly one bucket); and the assignee
belongs to the highest-priority non-empty bucket, has minimal load there, and
precedes (in roster order) every other bucket member of equal load. -/
def GreedyStepSpec (people : List Person) (e turnLen cur : Nat) (lastA : Option Nat)
    (load : List Int) (a tEnd : Nat) : Prop :=
  tEnd = min e (cur + turnLen) ∧
  (∀ i p, nth people i = some p → i < people.length → some i ≠ lastA →
    isOooForTurn p cur tEnd = false →
      ((i ∈ (classify people lastA cur tEnd).1 ↔ hasWantDay p cur tEnd) ∧
       (i ∈ (classify people lastA cur tEnd).2.2 ↔
         hasNotWantDay p cur tEnd ∧ ¬hasWantDay p cur tEnd) ∧
       (i ∈ (classify people lastA cur tEnd).2.1 ↔
         ¬hasWantDay p cur tEnd ∧ ¬hasNotWantDay p cur tEnd))) ∧
  a ∈ bestBucket people lastA cur tEnd ∧
  (∀ b ∈ bestBucket people lastA cur tEnd,
    loadOf load a ≤ loadOf load b ∧ (loadOf load b = loadOf load a → a ≤ b))

/-- C3: at every greedy step, each eligible candidate (not the last assignee,
not OOO in the window `[cur, min(e, cur+turnLen))`) lands in exactly one
bucket — Want iff some window day carries a Want preference, NotWant iff some
day carries NotWant and none Want, Neutral otherwise — and the assignee is the
lowest-load member of the highest-priority non-empty bucket (Want > Neutral >
NotWant), ties going to the first candidate in roster order. -/
theorem greedy_bucket_selection
    (people : List Person) (e turnLen cur : Nat) (lastA : Option Nat)
    (load : List Int) (a tEnd : Nat)
    (h : greedyStep people e turnLen cur lastA load = some (a, tEnd)) :
    GreedyStepSpec people e turnLen cur lastA load a tEnd := by
  unfold GreedyStepSpec
  simp only [greedyStep] at h
  rw [Option.map_eq_some'] at h
  obtain ⟨a', hpick, heq⟩ := h
  simp only [Prod.mk.injEq] at heq
  obtain ⟨rfl, htEnd⟩ := heq
  subst htEnd
  rw [greedyPick_eq] at hpick
  obtain ⟨hmem, hmin⟩ := minByLoad_spec load _ a'
    (bestBucket_sorted people lastA cur (min e (cur + turnLen))) hpick
  exact ⟨rfl,
    fun i p hp hi hla hooo => classify_mem_iff people lastA cur _ i p hp hi hla hooo,
    hmem, hmin⟩

/-- C9: with a single-person roster, every step after the first fails, because
the lone person is the `lastAssignee` on every subsequent step and is excluded
from candidacy.  Hence every run either succeeds with exactly one turn that
already reaches the schedule end, or returns `NoOneAvailable`; and whenever
the first step commits a turn ending before the schedule end, the run returns
`NoOneAvailable` at that very day (the second step fails immediately). -/
theorem balanced_single_person (p : Person) (s e minT maxT : Nat)
    (il : Option (List (String × Int))) (hse : s < e) (hmin : 1 ≤ minT) :
    ∀ r, balancedSchedule [p] s e minT maxT il = some r →
      ((∃ sched, r = Except.ok sched ∧ sched.turns.length = 1 ∧
          ∀ a ∈ sched.turns, a.stop = e) ∨
        (∃ d, r = Except.error (ScheduleError.NoOneAvailable d))) ∧
      (∀ a tEnd g v,
        balancedBest [p] e s minT maxT none (initLoad [p] il) = some (a, tEnd, g, v) →
        tEnd < e → r = Except.error (ScheduleError.NoOneAvailable tEnd)) := by
  intro r hr
  rw [balancedSchedule] at hr
  obtain ⟨f, hf⟩ : ∃ f, e - s = f + 1 := ⟨e - s - 1, by omega⟩
  rw [hf] at hr
  simp only [balancedAux, if_pos hse] at hr
  cases hbest : balancedBest [p] e s minT maxT none (initLoad [p] il) with
  | none =>
    rw [hbest] at hr
    simp only [Option.map_some', Except.map, Option.some.injEq] at hr
    subst hr
    constructor
    · exact Or.inr ⟨s, rfl⟩
    · intro a tEnd g v hb
      cases hb
  | some c =>
    obtain ⟨a, tEnd, pg, pv⟩ := c
    rw [hbest] at hr
    simp only [Option.map_some'] at hr
    obtain ⟨_, htlt', htle', htmax', hex⟩ :=
      balancedBest_spec [p] e s minT maxT none _ hmin hse hbest
    have htlt : s < tEnd := htlt'
    have htle : tEnd ≤ e := htle'
    have ha0 : a = 0 := by
      obtain ⟨q, hq, _⟩ := hex
      cases a with
      | zero => rfl
      | succ k => simp [nth] at hq
    subst ha0
    by_cases hte : tEnd < e
    · obtain ⟨f', hf'⟩ : ∃ f', f = f' + 1 := ⟨f - 1, by omega⟩
      have hinner : balancedAux [p] e minT maxT f tEnd (some 0)
          (bumpLoad (initLoad [p] il) 0 (daysDelta tEnd s)) =
          some (Except.error (ScheduleError.NoOneAvailable tEnd)) := by
        rw [hf']
        simp only [balancedAux, if_pos hte, balancedBest_single_last p e tEnd minT maxT]
      rw [hinner] at hr
      simp only [Option.map_some', Except.map, Option.some.injEq] at hr
      subst hr
      constructor
      · exact Or.inr ⟨tEnd, rfl⟩
      · intro a' tEnd' g' v' hb' _
        injection hb' with hb'
        injection hb' with h1 h2
        injection h2 with h21 h22
        subst h21
        rfl
    · have hinner : balancedAux [p] e minT maxT f tEnd (some 0)
          (bumpLoad (initLoad [p] il) 0 (daysDelta tEnd s)) = some (Except.ok []) := by
        cases f <;> simp only [balancedAux, if_neg hte]
      rw [hinner] at hr
      simp only [Option.map_some', Except.map, Option.some.injEq] at hr
      subst hr
      constructor
      · refine Or.inl ⟨_, rfl, rfl, ?_⟩
        intro x hx
        rcases List.mem_singleton.mp hx with rfl
        show tEnd = e
        omega
      · intro a' tEnd' g' v' hb' hlt'
        injection hb' with hb'
        injection hb' with h1 h2
        injection h2 with h21 h22
        rw [← h21] at hlt'
        exact absurd hlt' hte

/-- Decidable equality of strategy results, for evaluating witnesses. -/
instance : DecidableEq (Except ScheduleError Schedule) := fun x y =>
  match x, y with
  | Except.error a, Except.error b =>
    if h : a = b then Decidable.isTrue (by rw [h])
    else Decidable.isFalse (fun hh => h (by cases hh; rfl))
  | Except.ok a, Except.ok b =>
    if h : a = b then Decidable.isTrue (by rw [h])
    else Decidable.isFalse (fun hh => h (by cases hh; rfl))
  | Except.error _, Except.ok _ => Decidable.isFalse (fun hh => by cases hh)
  | Except.ok _, Except.error _ => Decidable.isFalse (fun hh => by cases hh)

/-! ## Witnesses -/

/-- Two-person roster, no OOO, no preferences. -/
def wPeople : List Person := [⟨"alice", "Alice", [], []⟩, ⟨"bob", "Bob", [], []⟩]

/-- Two-person roster, both OOO on day 0. -/
def wOooPeople : List Person := [⟨"alice", "Alice", [0], []⟩, ⟨"bob", "Bob", [0], []⟩]

/-- Single-person roster member. -/
def wSolo : Person := ⟨"solo", "Solo", [], []⟩

/-- Witness for C1 at a concrete valid input. -/
theorem strategies_contiguous_gapless_witness :
    (wPeople ≠ [] ∧ (0 : Nat) < 4 ∧ (1 : Nat) ≤ 2 ∧ (1 : Nat) ≤ 1 ∧ (1 : Nat) ≤ 2) ∧
    ((∀ sched, rrSchedule wPeople 0 4 2 none = some (Except.ok sched) →
        Gapless 0 4 sched.turns) ∧
     (∀ sched, greedySchedule wPeople 0 4 2 none none = some (Except.ok sched) →
        Gapless 0 4 sched.turns) ∧
     (∀ sched, balancedSchedule wPeople 0 4 1 2 none = some (Except.ok sched) →
        Gapless 0 4 sched.turns)) :=
  ⟨⟨by decide, by decide, by decide, by decide, by decide⟩,
   strategies_contiguous_gapless wPeople 0 4 2 1 2 none none
     (by decide) (by decide) (by decide) (by decide) (by decide)⟩

/-- Witness for C3 at a concrete step that picks candidate 0. -/
theorem greedy_bucket_selection_witness :
    greedyStep wPeople 4 2 0 none [0, 0] = some (0, 2) ∧
    GreedyStepSpec wPeople 4 2 0 none [0, 0] 0 2 :=
  ⟨rfl, greedy_bucket_selection wPeople 4 2 0 none [0, 0] 0 2 rfl⟩

/-- Witness for C4: both roster members OOO on the window's first day. -/
theorem all_ooo_first_day_fails_witness :
    (wOooPeople ≠ [] ∧ (0 : Nat) < 2 ∧ (1 : Nat) ≤ 1 ∧
      (∀ p ∈ wOooPeople, p.ooo.contains 0 = true)) ∧
    (rrSchedule wOooPeople 0 2 1 none =
      some (Except.error (ScheduleError.NoOneAvailable 0)) ∧
     greedySchedule wOooPeople 0 2 1 none none =
      some (Except.error (ScheduleError.NoOneAvailable 0)) ∧
     balancedSchedule wOooPeople 0 2 1 1 none =
      some (Except.error (ScheduleError.NoOneAvailable 0))) :=
  ⟨⟨by decide, by decide, by decide, by decide⟩,
   all_ooo_first_day_fails wOooPeople 0 2 1 1 1 none none
     (by decide) (by decide) (by decide) (by decide) (by decide)⟩

/-- Witness for C5 at a concrete valid input. -/
theorem strategies_terminate_witness :
    (wPeople ≠ [] ∧ (0 : Nat) < 4 ∧ (1 : Nat) ≤ 2 ∧ (1 : Nat) ≤ 1 ∧ (1 : Nat) ≤ 2) ∧
    ((∃ r, rrSchedule wPeople 0 4 2 none = some r) ∧
     (∃ r, greedySchedule wPeople 0 4 2 none none = some r) ∧
     (∃ r, balancedSchedule wPeople 0 4 1 2 none = some r)) :=
  ⟨⟨by decide, by decide, by decide, by decide, by decide⟩,
   strategies_terminate wPeople 0 4 2 1 2 none none
     (by decide) (by decide) (by decide) (by decide) (by decide)⟩

/-- Witness for C6 at a concrete valid input. -/
theorem greedy_balanced_no_immediate_repeat_witness :
    ((0 : Nat) < 4 ∧ (1 : Nat) ≤ 2 ∧ (1 : Nat) ≤ 1) ∧
    ((∀ sched, greedySchedule wPeople 0 4 2 none none = some (Except.ok sched) →
        NoImmediateRepeat sched.turns) ∧
     (∀ sched, balancedSchedule wPeople 0 4 1 2 none = some (Except.ok sched) →
        NoImmediateRepeat sched.turns)) :=
  ⟨⟨by decide, by decide, by decide⟩,
   greedy_balanced_no_immediate_repeat wPeople 0 4 2 1 2 none none
     (by decide) (by decide) (by decide)⟩

/-- Witness for C7 at a concrete valid input. -/
theorem greedy_balanced_ooo_exclusion_witness :
    ((0 : Nat) < 4 ∧ (1 : Nat) ≤ 2 ∧ (1 : Nat) ≤ 1) ∧
    ((∀ sched, greedySchedule wPeople 0 4 2 none none = some (Except.ok sched) →
        ∀ a ∈ sched.turns, turnOooFree wPeople a) ∧
     (∀ sched, balancedSchedule wPeople 0 4 1 2 none = some (Except.ok sched) →
        ∀ a ∈ sched.turns, turnOooFree wPeople a)) :=
  ⟨⟨by decide, by decide, by decide⟩,
   greedy_balanced_ooo_exclusion wPeople 0 4 2 1 2 none none
     (by decide) (by decide) (by decide)⟩

/-- Witness for C8 at a concrete valid input. -/
theorem rr_ooo_truncation_witness :
    (wPeople ≠ [] ∧ (0 : Nat) < 4 ∧ (1 : Nat) ≤ 2) ∧
    (∀ sched, rrSchedule wPeople 0 4 2 none = some (Except.ok sched) →
      ∀ a ∈ sched.turns, rrTurnOk wPeople 4 2 a) :=
  ⟨⟨by decide, by decide, by decide⟩,
   rr_ooo_truncation wPeople 0 4 2 none (by decide) (by decide) (by decide)⟩

/-- Witness for C9 at a concrete single-person input where the first turn
ends before the schedule end and the run fails at that day. -/
theorem balanced_single_person_witness :
    ((0 : Nat) < 5 ∧ (1 : Nat) ≤ 1) ∧
    balancedSchedule [wSolo] 0 5 1 10 none =
      some (Except.error (ScheduleError.NoOneAvailable 1)) ∧
    (∀ r, balancedSchedule [wSolo] 0 5 1 10 none = some r →
      ((∃ sched, r = Except.ok sched ∧ sched.turns.length = 1 ∧
          ∀ a ∈ sched.turns, a.stop = 5) ∨
        (∃ d, r = Except.error (ScheduleError.NoOneAvailable d))) ∧
      (∀ a tEnd g v,
        balancedBest [wSolo] 5 0 1 10 none (initLoad [wSolo] none) =
          some (a, tEnd, g, v) →
        tEnd < 5 → r = Except.error (ScheduleError.NoOneAvailable tEnd))) :=
  ⟨⟨by decide, by decide⟩, by with_unfolding_all rfl,
   balanced_single_person wSolo 0 5 1 10 none (by decide) (by decide)⟩
